import Mathlib

/-!
Verification development for the `far_glob` file-selection engine
(`rplugin/python3/far/sources/far_glob.py`).

Strings are modelled as `List Char` (Python `str` over its code points).
Filesystem paths are modelled as `List (List Char)` — the component tuple of a
`pathlib.Path` (e.g. `"/h/d/a.txt"` ↦ `["/", "h", "d", "a.txt"]`), since the
source manipulates `pathlib.Path` objects.  Fallible Python code (code that can
raise) is embedded with `Option`: `none` is "an exception was raised".
Filesystem interaction (`Path.glob`, `Path.is_file`, `open`) is abstracted into
a `FileSystem` record of oracles; everything else is translated directly from
the source.  The regex word class `\x5cw` is modelled over ASCII
(letters, digits, underscore).
-/

/-- Code points of a string literal, as the model's string type. -/
def str (s : String) : List Char := s.data

/-- The `\x5cw` character class of the `parse_or` regex (ASCII fragment):
letters, digits and underscore. -/
def wordChar (c : Char) : Bool := c.isAlpha || c.isDigit || c = '_'

/-- Split a string at every `|` character (used to state what the alternation
matcher recognised). -/
def splitBar : List Char → List (List Char)
  | [] => [ [] ]
  | c :: t =>
    if c = '|' then [] :: splitBar t
    else
      match splitBar t with
      | s :: ss => (c :: s) :: ss
      | [] => [ [c] ]

/-- Join alternatives back with `|` (left inverse of `splitBar`). -/
def joinBar : List (List Char) → List Char
  | [] => []
  | [a] => a
  | a :: rest => a ++ '|' :: joinBar rest

/-- Backtracking behaviour of the sub-regex `(\x5cw+\x7c|)*\x5cw+\x5c)` of `parse_or`
on the text following an opening parenthesis: consume maximal word-character
runs separated by single `|` characters (each run non-empty) and require a
closing `)` immediately after; return the alternatives and the rest of the
string after `)`.  `cur` is the word run currently being read (reversed is not
used: we append), `acc` the alternatives already read. -/
def scanAlts : List Char → List Char → List (List Char) → Option (List (List Char) × List Char)
  | [], _, _ => none
  | c :: rest, cur, acc =>
    if wordChar c then scanAlts rest (cur ++ [c]) acc
    else if c = '|' then
      if cur = [] then none else scanAlts rest [] (acc ++ [cur])
    else if c = ')' then
      if cur = [] then none else some (acc ++ [cur], rest)
    else none

/-- Whether the regex group `\x5c((\x5cw+\x7c|)*\x5cw+\x5c)` of `parse_or` matches at the
head of the string; on success, the list of alternatives and the text after
the closing parenthesis. -/
def matchGroupAt : List Char → Option (List (List Char) × List Char)
  | [] => none
  | c :: rest => if c = '(' then scanAlts rest [] [] else none

/-- `re.search` of the `parse_or` regex `(?P<pre>.*)(?P<or>...)(?P<post>.*)`:
because the `pre` group is greedy, the group that is captured is the one at the
RIGHTMOST position where the group sub-regex matches.  Returns
(`pre`, alternatives, `post`). -/
def findOr : List Char → Option (List Char × List (List Char) × List Char)
  | [] => none
  | c :: rest =>
    match findOr rest with
    | some (pre, alts, post) => some (c :: pre, alts, post)
    | none =>
      match matchGroupAt (c :: rest) with
      | some (alts, post) => some ([], alts, post)
      | none => none

/-- The per-rule expansion step of `parse_or`: if the regex matches, the list
`[pre + elt + post | elt in alts]`, else `none`. -/
def expandRule (r : List Char) : Option (List (List Char)) :=
  match findOr r with
  | some (pre, alts, post) => some (alts.map fun a => pre ++ a ++ post)
  | none => none

/-- One iteration of the `for rule in rules_origin` loop of `parse_or`:
the produced `new_rules` list together with the `added_new_rule` flag. -/
def parse_or_pass : List (List Char) → List (List Char) × Bool
  | [] => ([], false)
  | r :: rs =>
    let p := parse_or_pass rs
    match expandRule r with
    | some ex => (ex ++ p.1, true)
    | none => (r :: p.1, p.2)

/-- Number of `(` characters in a rule. -/
def parenCount (r : List Char) : Nat := r.count '('

/-- Termination measure of one rule: its `(`-count if the regex matches it,
`0` otherwise (a rule the regex does not match is passed through unchanged
forever). -/
def muRule (r : List Char) : Nat :=
  match findOr r with
  | some _ => parenCount r
  | none => 0

/-- Termination measure of a rule list: the maximum of `muRule` over it. -/
def maxMu (rules : List (List Char)) : Nat :=
  rules.foldr (fun r m => max (muRule r) m) 0

/-- Fuelled fixpoint loop of `parse_or` (the source recurses until the flag
`added_new_rule` is false; `parse_or` below supplies provably sufficient
fuel, see `parse_or_eq`). -/
def parseOrFuel : Nat → List (List Char) → List (List Char)
  | 0, rules => rules
  | n + 1, rules =>
    let p := parse_or_pass rules
    if p.2 then parseOrFuel n p.1 else p.1

/-- `parse_or` of the source: recursively expand all `(a|b|c)` groups until no
rule changes.  `maxMu rules + 1` rounds always reach the fixed point
(theorem `parse_or_eq` recovers the source's recursive equation). -/
def parse_or (rules : List (List Char)) : List (List Char) :=
  parseOrFuel (maxMu rules + 1) rules

/-- Python's slice `rule[-n:]`: the last `n` characters (the whole string when
it is shorter than `n`). -/
def lastN (n : Nat) (r : List Char) : List Char := r.drop (r.length - n)

/-- Tail rewriting of `proc` for a rule whose last character is `last`:
`xx/` gains `**/*`, else `xx/**` gains `/*`, else `xx/**/` gains `*`
(the branches are tested in this order, as in the source). -/
def procTail (last : Char) (r : List Char) : List Char :=
  if last = '/' then r ++ str "**/*"
  else if lastN 3 r = str "/**" then r ++ str "/*"
  else if lastN 4 r = str "/**/" then r ++ [ '*' ]
  else r

/-- The body of the `for rule_origin in rules_origin` loop of `proc` for one
rule: the list of globs appended for it (tail rewriting, then head
rewriting), or `none` when the Python code would raise (`rule[-1]` on the
empty string raises `IndexError`). -/
def procOne (r : List Char) : Option (List (List Char)) :=
  match r.getLast? with
  | none => none
  | some last =>
    match procTail last r with
    | [] => none
    | c :: rest =>
      if c = '/' then some (if rest = [] then [] else [rest])
      else
        some [(str "**/" ++ (c :: rest)) ++ str "/**/*", str "**/" ++ (c :: rest)]

/-- The whole loop of `proc`, concatenating the globs of each rule in order
(`none` as soon as some rule raises). -/
def procList : List (List Char) → Option (List (List Char))
  | [] => some []
  | r :: rs =>
    match procOne r, procList rs with
    | some a, some b => some (a ++ b)
    | _, _ => none

/-- `proc` of the source: alternation expansion followed by tail/head glob
rewriting of every rule. -/
def proc (rules_origin : List (List Char)) : Option (List (List Char)) :=
  procList (parse_or rules_origin)

/-- `exception_ignore` of the source: split ignore rules by a leading `!` into
(plain ignore rules, exception rules with the `!` stripped); `none` when the
Python code would raise (`rule[0]` on the empty string raises `IndexError`). -/
def exception_ignore : List (List Char) → Option (List (List Char) × List (List Char))
  | [] => some ([], [])
  | r :: rs =>
    match r with
    | [] => none
    | c :: rest =>
      match exception_ignore rs with
      | none => none
      | some p =>
        if c = '!' then some (p.1, rest :: p.2) else some (r :: p.1, p.2)

/-- A filesystem path, as the component tuple of a `pathlib.Path`
(`Path.parts`): e.g. `"/h/d/a.txt"` is `["/", "h", "d", "a.txt"]`. -/
abbrev FsPath : Type := List (List Char)

/-- The filesystem oracles the source interacts with.
`glob root rule` is `pathlib.Path(root).glob(rule)` as a list (in yield
order), with `none` for the `ValueError` a malformed pattern raises;
`is_file` is `Path.is_file`; `readFile p` is the line list of the file at
path string `p` (`none` when the file does not exist, i.e.
`FileNotFoundError`); `home` is the user's home directory for `~` expansion. -/
structure FileSystem where
  home : List Char
  glob : List Char → List Char → Option (List FsPath)
  is_file : FsPath → Bool
  readFile : List Char → Option (List (List Char))

/-- `os.path.expanduser` / `pathlib.Path.expanduser` on a path string: a
leading `~` that stands alone or is followed by `/` is replaced by the home
directory; anything else (including an unknown `~user`) is unchanged. -/
def expanduser (fs : FileSystem) (s : List Char) : List Char :=
  match s with
  | '~' :: rest =>
    if rest = [] ∨ rest.head? = some '/' then fs.home ++ rest else s
  | _ => s

/-- Helper of `splitParts`: split on `/`, dropping empty segments, with the
current segment accumulated in reverse. -/
def splitPartsAux : List Char → List Char → List (List Char)
  | [], cur => if cur = [] then [] else [cur.reverse]
  | c :: t, cur =>
    if c = '/' then
      if cur = [] then splitPartsAux t [] else cur.reverse :: splitPartsAux t []
    else splitPartsAux t (c :: cur)

/-- Split a path string on `/`, dropping empty segments. -/
def splitParts (s : List Char) : List (List Char) := splitPartsAux s []

/-- `pathlib.Path(s).parts` for a POSIX path string: a leading `/` becomes the
anchor component `"/"`, the rest is split on `/` (repeated and trailing
slashes collapse). -/
def splitPath (s : List Char) : FsPath :=
  match s with
  | '/' :: _ => [ '/' ] :: splitParts s
  | _ => splitParts s

/-- Boolean prefix test on component lists. -/
def isPrefB : FsPath → FsPath → Bool
  | [], _ => true
  | _ :: _, [] => false
  | a :: as, b :: bs => if a = b then isPrefB as bs else false

/-- `str()` of a relative `pathlib.Path` given by its components: components
joined with `/`. -/
def joinPath : FsPath → List Char
  | [] => []
  | [a] => a
  | a :: rest => a ++ '/' :: joinPath rest

/-- `str(f.relative_to(root))` for a file path `f` and a root path STRING
`root`: succeeds with the `/`-joined remaining components when `root`'s
components are a prefix of `f`'s, and is `none` for the `ValueError`
`Path.relative_to` raises otherwise. -/
def relative_str (root : List Char) (f : FsPath) : Option (List Char) :=
  let rp := splitPath root
  if isPrefB rp f = true then some (joinPath (f.drop rp.length)) else none

/-- Effectful map over a list in the `Option` monad (all-or-nothing, like a
Python loop or comprehension in which each element may raise). -/
def mapOpt (g : α → Option β) : List α → Option (List β)
  | [] => some []
  | a :: as =>
    match g a, mapOpt g as with
    | some b, some bs => some (b :: bs)
    | _, _ => none

/-- `glob_rules` of the source: glob every rule against the home-expanded
root, keep regular files only, and collect the results into a set
(modelled as a deduplicated list); `none` models `GlobError`. -/
def glob_rules (fs : FileSystem) (root : List Char) (rules : List (List Char)) :
    Option (List FsPath) :=
  match mapOpt (fs.glob (expanduser fs root)) rules with
  | none => none
  | some ls => some ((ls.flatten.filter fs.is_file).dedup)

/-- The first half of `far_glob`: sign-split of the ignore rules, `proc` of
the three rule sets, and the three `glob_rules` calls, yielding the include /
ignore / exception-ignore file sets. -/
def globSets (fs : FileSystem) (root : List Char)
    (rules ignore_rules : List (List Char)) :
    Option (List FsPath × List FsPath × List FsPath) :=
  match exception_ignore ignore_rules with
  | none => none
  | some (ign, exc) =>
    match proc rules, proc ign, proc exc with
    | some rs, some igs, some exs =>
      match glob_rules fs root rs, glob_rules fs root igs, glob_rules fs root exs with
      | some files, some nfiles, some efiles => some (files, nfiles, efiles)
      | _, _, _ => none
    | _, _, _ => none

/-- String order used by Python's `sorted` on `str`: lexicographic on code
points, a proper prefix ordering before its extensions. -/
def strLeB : List Char → List Char → Bool
  | [], _ => true
  | _ :: _, [] => false
  | a :: as, b :: bs => if a < b then true else if a = b then strLeB as bs else false

/-- `strLeB` as a relation. -/
def strLe (a b : List Char) : Prop := strLeB a b = true

instance : DecidableRel strLe := fun _ _ => inferInstanceAs (Decidable (_ = true))

/-- Python's `sorted` on a list of strings. -/
def sortStr (l : List (List Char)) : List (List Char) := List.insertionSort strLe l

/-- `far_glob` of the source: compute the three file sets, keep an included
file unless it is ignored and not exception-ignored, convert the survivors to
paths relative to the (UNEXPANDED) `root` argument, and sort.  `none` models
any raised exception. -/
def far_glob (fs : FileSystem) (root : List Char)
    (rules ignore_rules : List (List Char)) : Option (List (List Char)) :=
  match globSets fs root rules ignore_rules with
  | none => none
  | some (files, nfiles, efiles) =>
    let kept := files.filter fun f => decide (¬ (f ∈ nfiles ∧ f ∉ efiles))
    match mapOpt (relative_str root) kept with
    | none => none
    | some rels => some (sortStr rels)

/-- Python's `str.strip` character class `\s` (ASCII fragment):
space, tab, newline, carriage return, vertical tab, form feed. -/
def pySpace (c : Char) : Bool :=
  c = ' ' || c = '\t' || c = '\n' || c = '\r' || c = '\x0b' || c = '\x0c'

/-- Python's `str.strip()`: remove leading and trailing whitespace. -/
def pyStrip (l : List Char) : List Char :=
  ((l.dropWhile pySpace).reverse.dropWhile pySpace).reverse

/-- The body of the line loop of `load_ignore_rules`: the stripped line when
it is kept, `none` when it is skipped (a `//` line, a blank line, or a
`#` comment line as matched by `re.search` of `^\s*#`). -/
def keepLine (l : List Char) : Option (List Char) :=
  let s := pyStrip l
  if 2 ≤ s.length ∧ s.take 2 = str "//" then none
  else if s = [] ∨ (s.dropWhile pySpace).head? = some '#' then none
  else some s

/-- Outcome of `load_ignore_rules`: either the distinguishable
`IgnoreFileError` (wrapping `FileNotFoundError`) or the kept rule lines. -/
inductive LoadResult where
  | ignoreFileError : LoadResult
  | ok : List (List Char) → LoadResult
deriving DecidableEq

/-- `load_ignore_rules` of the source: open the home-expanded path, raise
`IgnoreFileError` when the file does not exist, otherwise return the stripped
non-comment non-blank lines in order. -/
def load_ignore_rules (fs : FileSystem) (file_path : List Char) : LoadResult :=
  match fs.readFile (expanduser fs file_path) with
  | none => LoadResult.ignoreFileError
  | some lines => LoadResult.ok (lines.filterMap keepLine)

/-- Well-formedness of one path yielded by the glob oracle: every component is
non-empty and contains no `/` (true of every `pathlib.Path`). -/
def PathOk (f : FsPath) : Prop := ∀ c ∈ f, c ≠ [] ∧ '/' ∉ c

/-- Realism condition on a `FileSystem`: every path its glob oracle yields is
component-wise well-formed. -/
def GlobPathsOk (fs : FileSystem) : Prop :=
  ∀ root rule ps, fs.glob root rule = some ps → ∀ f ∈ ps, PathOk f

/-- Realism condition on a `FileSystem`: every path its glob oracle yields
lies under the globbed root (true of `pathlib.Path.glob`). -/
def GlobUnder (fs : FileSystem) : Prop :=
  ∀ root rule ps, fs.glob root rule = some ps → ∀ f ∈ ps, isPrefB (splitPath root) f = true

/-- File `r/a.txt` of the concrete test filesystem `fsA`. -/
def paA : FsPath := [str "r", str "a.txt"]

/-- File `r/b.txt` of the concrete test filesystem `fsA`. -/
def pbA : FsPath := [str "r", str "b.txt"]

/-- File `r/c.txt` of the concrete test filesystem `fsA`. -/
def pcA : FsPath := [str "r", str "c.txt"]

/-- A concrete test filesystem under relative root `r`: the include glob
`**/x` matches `a.txt`, `b.txt`, `c.txt`; the ignore glob `**/y` matches
`b.txt`, `c.txt`; the exception-ignore glob `**/z` matches `c.txt`. -/
def fsA : FileSystem where
  home := str "/h"
  glob := fun root rule =>
    some (if root = str "r" then
            if rule = str "**/x" then [paA, pbA, pcA]
            else if rule = str "**/y" then [pbA, pcA]
            else if rule = str "**/z" then [pcA]
            else []
          else [])
  is_file := fun _ => true
  readFile := fun _ => none

/-- File `/h/d/a.txt` of the concrete test filesystem `fsB`. -/
def pfB : FsPath := [ [ '/' ], str "h", str "d", str "a.txt"]

/-- A concrete test filesystem whose home directory is `/h` and which has the
single file `/h/d/a.txt`, matched by the glob `**/x` under root `/h/d`. -/
def fsB : FileSystem where
  home := str "/h"
  glob := fun root rule =>
    some (if root = str "/h/d" ∧ rule = str "**/x" then [pfB] else [])
  is_file := fun _ => true
  readFile := fun _ => none

/-- A concrete test filesystem whose home directory is `/h` and which has one
readable file `/h/.farignore` with a comment line, a blank line, a
`//` line and one real rule. -/
def fsC : FileSystem where
  home := str "/h"
  glob := fun _ _ => some []
  is_file := fun _ => true
  readFile := fun p =>
    if p = str "/h/.farignore" then
      some [str "  # comment", str "", str "//old-rule", str "valid.txt"]
    else none

/-! ### Lemmas: the alternation matcher of `parse_or` -/

theorem wordChar_ne {c : Char} (h : wordChar c = true) :
    c ≠ '|' ∧ c ≠ ')' ∧ c ≠ '(' ∧ c ≠ '/' := by
  refine ⟨?_, ?_, ?_, ?_⟩ <;> rintro rfl <;> exact absurd h (by decide)

theorem splitBar_ne_nil (l : List Char) : splitBar l ≠ [] := by
  cases l with
  | nil => simp [splitBar]
  | cons c t =>
    simp only [splitBar]
    split
    · simp
    · split <;> simp

theorem splitBar_word (w : List Char) (hw : ∀ c ∈ w, wordChar c = true) :
    splitBar w = [w] := by
  induction w with
  | nil => rfl
  | cons c t ih =>
    have hc : c ≠ '|' := (wordChar_ne (hw c (by simp))).1
    have ht : splitBar t = [t] := ih (fun x hx => hw x (by simp [hx]))
    simp [splitBar, hc, ht]

theorem splitBar_append_bar (w u : List Char) (hw : ∀ c ∈ w, wordChar c = true) :
    splitBar (w ++ '|' :: u) = w :: splitBar u := by
  induction w with
  | nil => simp [splitBar]
  | cons c t ih =>
    have hc : c ≠ '|' := (wordChar_ne (hw c (by simp))).1
    have ht := ih (fun x hx => hw x (by simp [hx]))
    simp [splitBar, hc, ht]

theorem joinBar_splitBar (u : List Char) : joinBar (splitBar u) = u := by
  induction u with
  | nil => rfl
  | cons c t ih =>
    by_cases hc : c = '|'
    · subst hc
      simp only [splitBar, if_pos rfl]
      obtain ⟨s, ss, h⟩ : ∃ s ss, splitBar t = s :: ss := by
        cases h' : splitBar t with
        | nil => exact absurd h' (splitBar_ne_nil t)
        | cons s ss => exact ⟨s, ss, rfl⟩
      rw [h]
      have ih' : joinBar (s :: ss) = t := by rw [h] at ih; exact ih
      show [] ++ '|' :: joinBar (s :: ss) = '|' :: t
      rw [ih']
      rfl
    · simp only [splitBar, if_neg hc]
      obtain ⟨s, ss, h⟩ : ∃ s ss, splitBar t = s :: ss := by
        cases h' : splitBar t with
        | nil => exact absurd h' (splitBar_ne_nil t)
        | cons s ss => exact ⟨s, ss, rfl⟩
      rw [h]
      have ih' : joinBar (s :: ss) = t := by rw [h] at ih; exact ih
      cases ss with
      | nil =>
        show c :: s = c :: t
        rw [show s = t from ih']
      | cons z zs =>
        show (c :: s) ++ '|' :: joinBar (z :: zs) = c :: t
        rw [← ih']
        rfl

theorem scanAlts_spec (t : List Char) : ∀ cur acc alts rest,
    scanAlts t cur acc = some (alts, rest) →
    (∀ c ∈ cur, wordChar c = true) →
    ∃ u, t = u ++ ')' :: rest ∧ alts = acc ++ splitBar (cur ++ u) := by
  induction t with
  | nil => intro cur acc alts rest h; simp [scanAlts] at h
  | cons c t ih =>
    intro cur acc alts rest h hw
    simp only [scanAlts] at h
    by_cases h1 : wordChar c = true
    · rw [if_pos h1] at h
      obtain ⟨u, hu, ha⟩ := ih (cur ++ [c]) acc alts rest h (by
        intro x hx
        rcases List.mem_append.1 hx with hx | hx
        · exact hw x hx
        · simp at hx; subst hx; exact h1)
      refine ⟨c :: u, by simp [hu], ?_⟩
      simpa [List.append_assoc] using ha
    · rw [if_neg h1] at h
      by_cases h2 : c = '|'
      · rw [if_pos h2] at h
        by_cases h3 : cur = []
        · rw [if_pos h3] at h; simp at h
        · rw [if_neg h3] at h
          obtain ⟨u, hu, ha⟩ := ih [] (acc ++ [cur]) alts rest h (by simp)
          subst h2
          refine ⟨'|' :: u, by simp [hu], ?_⟩
          rw [splitBar_append_bar cur u hw]
          simpa using ha
      · rw [if_neg h2] at h
        by_cases h4 : c = ')'
        · rw [if_pos h4] at h
          by_cases h3 : cur = []
          · rw [if_pos h3] at h; simp at h
          · rw [if_neg h3] at h
            have h5 : acc ++ [cur] = alts ∧ t = rest := by
              constructor <;> [exact congrArg Prod.fst (Option.some.inj h);
                exact congrArg Prod.snd (Option.some.inj h)]
            subst h4
            refine ⟨[], by simp [h5.2], ?_⟩
            rw [List.append_nil, splitBar_word cur hw, ← h5.1]
        · rw [if_neg h4] at h; simp at h

theorem scanAlts_ok (t : List Char) : ∀ cur acc alts rest,
    scanAlts t cur acc = some (alts, rest) →
    (∀ c ∈ cur, wordChar c = true) →
    (∀ a ∈ acc, a ≠ [] ∧ ∀ c ∈ a, wordChar c = true) →
    ∀ a ∈ alts, a ≠ [] ∧ ∀ c ∈ a, wordChar c = true := by
  induction t with
  | nil => intro cur acc alts rest h; simp [scanAlts] at h
  | cons c t ih =>
    intro cur acc alts rest h hw hacc
    simp only [scanAlts] at h
    by_cases h1 : wordChar c = true
    · rw [if_pos h1] at h
      exact ih (cur ++ [c]) acc alts rest h (by
        intro x hx
        rcases List.mem_append.1 hx with hx | hx
        · exact hw x hx
        · simp at hx; subst hx; exact h1) hacc
    · rw [if_neg h1] at h
      by_cases h2 : c = '|'
      · rw [if_pos h2] at h
        by_cases h3 : cur = []
        · rw [if_pos h3] at h; simp at h
        · rw [if_neg h3] at h
          exact ih [] (acc ++ [cur]) alts rest h (by simp) (by
            intro a ha
            rcases List.mem_append.1 ha with ha | ha
            · exact hacc a ha
            · simp at ha; subst ha; exact ⟨h3, hw⟩)
      · rw [if_neg h2] at h
        by_cases h4 : c = ')'
        · rw [if_pos h4] at h
          by_cases h3 : cur = []
          · rw [if_pos h3] at h; simp at h
          · rw [if_neg h3] at h
            have h5 : acc ++ [cur] = alts := congrArg Prod.fst (Option.some.inj h)
            intro a ha
            rw [← h5] at ha
            rcases List.mem_append.1 ha with ha | ha
            · exact hacc a ha
            · simp at ha; subst ha; exact ⟨h3, hw⟩
        · rw [if_neg h4] at h; simp at h

theorem matchGroupAt_spec {s : List Char} {alts : List (List Char)} {rest : List Char}
    (h : matchGroupAt s = some (alts, rest)) :
    s = '(' :: (joinBar alts ++ ')' :: rest) ∧
      ∀ a ∈ alts, a ≠ [] ∧ ∀ c ∈ a, wordChar c = true := by
  cases s with
  | nil => simp [matchGroupAt] at h
  | cons c t =>
    simp only [matchGroupAt] at h
    by_cases hc : c = '('
    · rw [if_pos hc] at h
      obtain ⟨u, hu, ha⟩ := scanAlts_spec t [] [] alts rest h (by simp)
      have hok := scanAlts_ok t [] [] alts rest h (by simp) (by simp)
      have ha' : alts = splitBar u := by simpa using ha
      subst hc
      refine ⟨?_, hok⟩
      rw [hu, ha', joinBar_splitBar]
    · rw [if_neg hc] at h; simp at h

theorem findOr_none_match {s : List Char} (h : findOr s = none) :
    ∀ k, matchGroupAt (s.drop k) = none := by
  induction s with
  | nil => intro k; simp [List.drop_nil, matchGroupAt]
  | cons c t ih =>
    have h1 : findOr t = none := by
      by_contra hne
      obtain ⟨⟨pre, alts, post⟩, hp⟩ := Option.ne_none_iff_exists'.1 hne
      simp [findOr, hp] at h
    have h2 : matchGroupAt (c :: t) = none := by
      simp only [findOr, h1] at h
      cases hm : matchGroupAt (c :: t) with
      | none => rfl
      | some p => rw [hm] at h; cases p; simp at h
    intro k
    cases k with
    | zero => exact h2
    | succ k => exact ih h1 k

theorem findOr_none_of {s : List Char}
    (h : ∀ k, matchGroupAt (s.drop k) = none) : findOr s = none := by
  induction s with
  | nil => rfl
  | cons c t ih =>
    have h1 : findOr t = none := ih (fun k => h (k + 1))
    have h2 : matchGroupAt (c :: t) = none := h 0
    simp [findOr, h1, h2]

theorem findOr_spec {r pre : List Char} {alts : List (List Char)} {post : List Char}
    (h : findOr r = some (pre, alts, post)) :
    r = pre ++ '(' :: (joinBar alts ++ ')' :: post) ∧
      (∀ a ∈ alts, a ≠ [] ∧ ∀ c ∈ a, wordChar c = true) ∧
      ∀ k, pre.length < k → matchGroupAt (r.drop k) = none := by
  induction r generalizing pre with
  | nil => simp [findOr] at h
  | cons c t ih =>
    simp only [findOr] at h
    cases h1 : findOr t with
    | some p =>
      obtain ⟨pre', alts', post'⟩ := p
      rw [h1] at h
      have hpre := Option.some.inj h
      simp only [Prod.mk.injEq] at hpre
      obtain ⟨rfl, rfl, rfl⟩ := hpre
      obtain ⟨hd, hok, hrm⟩ := ih h1
      refine ⟨by rw [List.cons_append, ← hd], hok, ?_⟩
      intro k hk
      cases k with
      | zero => omega
      | succ k =>
        rw [List.drop_succ_cons]
        exact hrm k (by simpa using hk)
    | none =>
      rw [h1] at h
      cases h2 : matchGroupAt (c :: t) with
      | none => rw [h2] at h; simp at h
      | some p =>
        obtain ⟨alts', post'⟩ := p
        rw [h2] at h
        have hpre := Option.some.inj h
        simp only [Prod.mk.injEq] at hpre
        obtain ⟨rfl, rfl, rfl⟩ := hpre
        obtain ⟨hd, hok⟩ := matchGroupAt_spec h2
        refine ⟨by simpa using hd, hok, ?_⟩
        intro k hk
        cases k with
        | zero => simp at hk
        | succ k =>
          rw [List.drop_succ_cons]
          exact findOr_none_match h1 k

/-! ### Lemmas: the fixpoint loop of `parse_or` -/

theorem joinBar_no_paren {alts : List (List Char)}
    (h : ∀ a ∈ alts, a ≠ [] ∧ ∀ c ∈ a, wordChar c = true) : '(' ∉ joinBar alts := by
  induction alts with
  | nil => simp [joinBar]
  | cons a rest ih =>
    cases rest with
    | nil =>
      show '(' ∉ a
      intro hmem
      exact absurd ((h a (by simp)).2 '(' hmem) (by decide)
    | cons b bs =>
      show '(' ∉ a ++ '|' :: joinBar (b :: bs)
      intro hmem
      rcases List.mem_append.1 hmem with hm | hm
      · exact absurd ((h a (by simp)).2 '(' hm) (by decide)
      · rcases List.mem_cons.1 hm with hm | hm
        · exact absurd hm (by decide)
        · exact ih (fun x hx => h x (by simp [hx])) hm

theorem expandRule_count {r : List Char} {cs : List (List Char)}
    (h : expandRule r = some cs) :
    1 ≤ parenCount r ∧ ∀ x ∈ cs, parenCount x + 1 = parenCount r ∧ x ≠ [] := by
  unfold expandRule at h
  cases hf : findOr r with
  | none => rw [hf] at h; simp at h
  | some p =>
    obtain ⟨pre, alts, post⟩ := p
    rw [hf] at h
    have hcs : cs = alts.map fun a => pre ++ a ++ post := (Option.some.inj h).symm
    obtain ⟨hd, hok, _⟩ := findOr_spec hf
    have hnp : '(' ∉ joinBar alts := joinBar_no_paren hok
    have hcount : parenCount r = parenCount pre + parenCount post + 1 := by
      rw [hd]
      simp [parenCount, List.count_append, List.count_cons,
        List.count_eq_zero_of_not_mem hnp]
      omega
    refine ⟨by omega, ?_⟩
    intro x hx
    rw [hcs] at hx
    obtain ⟨a, ha, rfl⟩ := List.mem_map.1 hx
    have hwa : '(' ∉ a := fun hm => absurd ((hok a ha).2 '(' hm) (by decide)
    have hca : parenCount a = 0 := by
      simpa [parenCount] using List.count_eq_zero_of_not_mem hwa
    constructor
    · have : parenCount (pre ++ a ++ post) =
          parenCount pre + parenCount a + parenCount post := by
        simp [parenCount, List.count_append]
        omega
      omega
    · have hane : a ≠ [] := (hok a ha).1
      intro hnil
      rw [List.append_assoc] at hnil
      rcases List.append_eq_nil.1 hnil with ⟨-, h2⟩
      rcases List.append_eq_nil.1 h2 with ⟨h3, -⟩
      exact hane h3

theorem muRule_eq_of_expand {r : List Char} {ex : List (List Char)}
    (he : expandRule r = some ex) : muRule r = parenCount r := by
  unfold expandRule at he
  cases hf : findOr r with
  | none => rw [hf] at he; simp at he
  | some p => simp [muRule, hf]

theorem muRule_le (x : List Char) : muRule x ≤ parenCount x := by
  unfold muRule; cases findOr x <;> simp

theorem passElem (rules : List (List Char)) : ∀ x, x ∈ (parse_or_pass rules).1 →
    muRule x = 0 ∨ ∃ r ∈ rules, muRule x < muRule r := by
  induction rules with
  | nil => intro x hx; simp [parse_or_pass] at hx
  | cons r rs ih =>
    intro x hx
    simp only [parse_or_pass] at hx
    cases he : expandRule r with
    | some ex =>
      rw [he] at hx
      simp only at hx
      rcases List.mem_append.1 hx with hx | hx
      · right
        refine ⟨r, by simp, ?_⟩
        obtain ⟨h1, h2⟩ := expandRule_count he
        have hx' := (h2 x hx).1
        have hmu := muRule_eq_of_expand he
        have := muRule_le x
        omega
      · rcases ih x hx with h | ⟨r', hr', hlt⟩
        · left; exact h
        · right; exact ⟨r', by simp [hr'], hlt⟩
    | none =>
      rw [he] at hx
      simp only at hx
      rcases List.mem_cons.1 hx with rfl | hx
      · left
        unfold expandRule at he
        cases hf : findOr x with
        | some p => rw [hf] at he; obtain ⟨a, b, c⟩ := p; simp at he
        | none => simp [muRule, hf]
      · rcases ih x hx with h | ⟨r', hr', hlt⟩
        · left; exact h
        · right; exact ⟨r', by simp [hr'], hlt⟩

theorem passFlag {rules : List (List Char)} (h : (parse_or_pass rules).2 = true) :
    ∃ r ∈ rules, 1 ≤ muRule r := by
  induction rules with
  | nil => simp [parse_or_pass] at h
  | cons r rs ih =>
    simp only [parse_or_pass] at h
    cases he : expandRule r with
    | some ex =>
      refine ⟨r, by simp, ?_⟩
      obtain ⟨h1, -⟩ := expandRule_count he
      have hmu := muRule_eq_of_expand he
      omega
    | none =>
      rw [he] at h
      simp only at h
      obtain ⟨r', hr', h1⟩ := ih h
      exact ⟨r', by simp [hr'], h1⟩

theorem maxMu_cons (a : List Char) (as : List (List Char)) :
    maxMu (a :: as) = max (muRule a) (maxMu as) := rfl

theorem le_maxMu {r : List Char} {rules : List (List Char)} (h : r ∈ rules) :
    muRule r ≤ maxMu rules := by
  induction rules with
  | nil => simp at h
  | cons a as ih =>
    rw [maxMu_cons]
    rcases List.mem_cons.1 h with rfl | h
    · exact le_max_left _ _
    · exact le_trans (ih h) (le_max_right _ _)

theorem maxMu_le {l : List (List Char)} {b : Nat} (h : ∀ x ∈ l, muRule x ≤ b) :
    maxMu l ≤ b := by
  induction l with
  | nil => exact Nat.zero_le b
  | cons a as ih =>
    rw [maxMu_cons]
    exact max_le (h a (by simp)) (ih fun x hx => h x (by simp [hx]))

theorem pass_decrease {rules : List (List Char)}
    (h : (parse_or_pass rules).2 = true) :
    maxMu (parse_or_pass rules).1 < maxMu rules := by
  obtain ⟨r, hr, h1⟩ := passFlag h
  have hge : 1 ≤ maxMu rules := le_trans h1 (le_maxMu hr)
  have hle : maxMu (parse_or_pass rules).1 ≤ maxMu rules - 1 := by
    apply maxMu_le
    intro x hx
    rcases passElem rules x hx with h0 | ⟨r', hr', hlt⟩
    · omega
    · have := le_maxMu hr'
      omega
  omega

theorem parseOrFuel_eq_parse_or : ∀ n rules, maxMu rules < n →
    parseOrFuel n rules = parse_or rules := by
  intro n
  induction n using Nat.strong_induction_on with
  | _ n ih =>
    intro rules h
    cases n with
    | zero => omega
    | succ n =>
      by_cases hf : (parse_or_pass rules).2 = true
      · have hd := pass_decrease hf
        have h1 : parseOrFuel (n + 1) rules = parseOrFuel n (parse_or_pass rules).1 := by
          simp only [parseOrFuel, hf, if_true]
        have h2 : parse_or rules = parseOrFuel (maxMu rules) (parse_or_pass rules).1 := by
          unfold parse_or
          have hmm : maxMu rules + 1 = maxMu rules + 1 := rfl
          simp only [parseOrFuel, hf, if_true]
        rw [h1, h2]
        rw [ih n (by omega) (parse_or_pass rules).1 (by omega)]
        rw [ih (maxMu rules) (by omega) (parse_or_pass rules).1 (by omega)]
      · have hf' : (parse_or_pass rules).2 = false := by
          cases hb : (parse_or_pass rules).2
          · rfl
          · exact absurd hb hf
        have h1 : parseOrFuel (n + 1) rules = (parse_or_pass rules).1 := by
          simp [parseOrFuel, hf']
        have h2 : parse_or rules = (parse_or_pass rules).1 := by
          unfold parse_or
          simp [parseOrFuel, hf']
        rw [h1, h2]

theorem parse_or_eq (rules : List (List Char)) : parse_or rules =
    if (parse_or_pass rules).2 then parse_or (parse_or_pass rules).1
    else (parse_or_pass rules).1 := by
  by_cases hf : (parse_or_pass rules).2 = true
  · have hd := pass_decrease hf
    rw [if_pos hf]
    conv_lhs => unfold parse_or
    simp only [parseOrFuel, hf, if_true]
    exact parseOrFuel_eq_parse_or (maxMu rules) _ (by omega)
  · have hf' : (parse_or_pass rules).2 = false := by
      cases hb : (parse_or_pass rules).2
      · rfl
      · exact absurd hb hf
    rw [hf']
    conv_lhs => unfold parse_or
    simp [parseOrFuel, hf']

theorem parse_or_single_nomatch {r : List Char} (h : findOr r = none) :
    parse_or [r] = [r] := by
  have hp : parse_or_pass [r] = ([r], false) := by
    simp [parse_or_pass, expandRule, h]
  rw [parse_or_eq, hp]
  simp

/-! ### Lemmas: totality of the pure rule transformations on non-empty rules -/

theorem pass_preserve {rules : List (List Char)} (h : ∀ r ∈ rules, r ≠ []) :
    ∀ x ∈ (parse_or_pass rules).1, x ≠ [] := by
  induction rules with
  | nil => intro x hx; simp [parse_or_pass] at hx
  | cons r rs ih =>
    intro x hx
    simp only [parse_or_pass] at hx
    cases he : expandRule r with
    | some ex =>
      rw [he] at hx
      simp only at hx
      rcases List.mem_append.1 hx with hx | hx
      · exact ((expandRule_count he).2 x hx).2
      · exact ih (fun a ha => h a (by simp [ha])) x hx
    | none =>
      rw [he] at hx
      simp only at hx
      rcases List.mem_cons.1 hx with rfl | hx
      · exact h x (by simp)
      · exact ih (fun a ha => h a (by simp [ha])) x hx

theorem parseOrFuel_preserve : ∀ n (rules : List (List Char)),
    (∀ r ∈ rules, r ≠ []) → ∀ x ∈ parseOrFuel n rules, x ≠ [] := by
  intro n
  induction n with
  | zero => intro rules h x hx; exact h x hx
  | succ n ih =>
    intro rules h x hx
    by_cases hf : (parse_or_pass rules).2 = true
    · rw [show parseOrFuel (n + 1) rules = parseOrFuel n (parse_or_pass rules).1 by
        simp [parseOrFuel, hf]] at hx
      exact ih _ (pass_preserve h) x hx
    · have hf' : (parse_or_pass rules).2 = false := by
        cases hb : (parse_or_pass rules).2
        · rfl
        · exact absurd hb hf
      rw [show parseOrFuel (n + 1) rules = (parse_or_pass rules).1 by
        simp [parseOrFuel, hf']] at hx
      exact pass_preserve h x hx

theorem parse_or_preserve {rules : List (List Char)} (h : ∀ r ∈ rules, r ≠ []) :
    ∀ x ∈ parse_or rules, x ≠ [] :=
  parseOrFuel_preserve _ rules h

theorem procTail_ne_nil {r : List Char} (last : Char) (h : r ≠ []) :
    procTail last r ≠ [] := by
  unfold procTail
  split_ifs <;> simp [h]

theorem procOne_total {r : List Char} (h : r ≠ []) : (procOne r).isSome := by
  obtain ⟨last, hl⟩ := Option.isSome_iff_exists.1 (List.getLast?_isSome.2 h)
  unfold procOne
  cases ht : procTail last r with
  | nil => exact absurd ht (procTail_ne_nil last h)
  | cons c rest =>
    simp only [hl, ht]
    by_cases hc : c = '/'
    · simp [hc]
    · simp [hc]

theorem procList_total {l : List (List Char)} (h : ∀ r ∈ l, r ≠ []) :
    (procList l).isSome := by
  induction l with
  | nil => simp [procList]
  | cons r rs ih =>
    obtain ⟨a, ha⟩ := Option.isSome_iff_exists.1 (procOne_total (h r (by simp)))
    obtain ⟨b, hb⟩ := Option.isSome_iff_exists.1 (ih (fun x hx => h x (by simp [hx])))
    simp [procList, ha, hb]

theorem proc_total {rules : List (List Char)} (h : ∀ r ∈ rules, r ≠ []) :
    (proc rules).isSome :=
  procList_total (parse_or_preserve h)

theorem exception_ignore_total {rules : List (List Char)}
    (h : ∀ r ∈ rules, r ≠ []) : (exception_ignore rules).isSome := by
  induction rules with
  | nil => simp [exception_ignore]
  | cons r rs ih =>
    obtain ⟨c, t, rfl⟩ : ∃ c t, r = c :: t := by
      cases r with
      | nil => exact absurd rfl (h [] (by simp))
      | cons c t => exact ⟨c, t, rfl⟩
    obtain ⟨p, hp⟩ := Option.isSome_iff_exists.1 (ih (fun x hx => h x (by simp [hx])))
    by_cases hc : c = '!'
    · simp [exception_ignore, hp, hc]
    · simp [exception_ignore, hp, hc]

theorem procOne_anywhere {r : List Char} (hne : r ≠ [])
    (hlast : r.getLast? ≠ some '/') (h3 : lastN 3 r ≠ str "/**")
    (h4 : lastN 4 r ≠ str "/**/") (hhead : r.head? ≠ some '/') :
    procOne r = some [(str "**/" ++ r) ++ str "/**/*", str "**/" ++ r] := by
  obtain ⟨last, hl⟩ := Option.isSome_iff_exists.1 (List.getLast?_isSome.2 hne)
  have hlast' : last ≠ '/' := fun hh => hlast (by rw [hl, hh])
  have ht : procTail last r = r := by
    unfold procTail
    rw [if_neg hlast', if_neg h3, if_neg h4]
  obtain ⟨c, rest, rfl⟩ : ∃ c rest, r = c :: rest := by
    cases r with
    | nil => exact absurd rfl hne
    | cons c rest => exact ⟨c, rest, rfl⟩
  have hc : c ≠ '/' := fun hh => hhead (by rw [hh]; rfl)
  unfold procOne
  simp only [hl, ht]
  simp [hc]

/-! ### Lemmas: paths, relative paths and the string order -/

theorem mapOpt_forall2 {α β : Type} {g : α → Option β} : ∀ {l : List α} {bs : List β},
    mapOpt g l = some bs → List.Forall₂ (fun a b => g a = some b) l bs := by
  intro l
  induction l with
  | nil =>
    intro bs h
    simp only [mapOpt] at h
    rw [← Option.some.inj h]
    exact List.Forall₂.nil
  | cons a as ih =>
    intro bs h
    simp only [mapOpt] at h
    cases hg : g a with
    | none => rw [hg] at h; simp at h
    | some b =>
      rw [hg] at h
      cases hm : mapOpt g as with
      | none => rw [hm] at h; simp at h
      | some bs' =>
        rw [hm] at h
        rw [← Option.some.inj h]
        exact List.Forall₂.cons hg (ih hm)

theorem forall2_mem_left {α β : Type} {R : α → β → Prop} {l : List α} {bs : List β}
    (h : List.Forall₂ R l bs) : ∀ a ∈ l, ∃ b ∈ bs, R a b := by
  induction h with
  | nil => intro a ha; simp at ha
  | cons hr _ ih =>
    intro x hx
    rcases List.mem_cons.1 hx with rfl | hx
    · exact ⟨_, by simp, hr⟩
    · obtain ⟨b, hb, hrb⟩ := ih x hx
      exact ⟨b, by simp [hb], hrb⟩

theorem forall2_mem_right {α β : Type} {R : α → β → Prop} {l : List α} {bs : List β}
    (h : List.Forall₂ R l bs) : ∀ b ∈ bs, ∃ a ∈ l, R a b := by
  induction h with
  | nil => intro b hb; simp at hb
  | cons hr _ ih =>
    intro y hy
    rcases List.mem_cons.1 hy with rfl | hy
    · exact ⟨_, by simp, hr⟩
    · obtain ⟨a, ha, hra⟩ := ih y hy
      exact ⟨a, by simp [ha], hra⟩

theorem isPrefB_eq {p : FsPath} : ∀ {f : FsPath}, isPrefB p f = true →
    f = p ++ f.drop p.length := by
  induction p with
  | nil => intro f _; simp
  | cons a as ih =>
    intro f h
    cases f with
    | nil => simp [isPrefB] at h
    | cons b bs =>
      simp only [isPrefB] at h
      by_cases hab : a = b
      · rw [if_pos hab] at h
        subst hab
        have hbs := ih h
        calc a :: bs = a :: (as ++ bs.drop as.length) := by rw [← hbs]
          _ = (a :: as) ++ (a :: bs).drop (a :: as).length := by simp
      · rw [if_neg hab] at h
        simp at h

theorem append_bar_inj {x : Char} : ∀ {a b u v : List Char}, x ∉ a → x ∉ b →
    a ++ x :: u = b ++ x :: v → a = b ∧ u = v := by
  intro a
  induction a with
  | nil =>
    intro b u v _ hb h
    cases b with
    | nil => simp at h; exact ⟨rfl, h⟩
    | cons c cs =>
      simp at h
      exact absurd (h.1 ▸ List.mem_cons_self c cs) hb
  | cons c cs ih =>
    intro b u v ha hb h
    cases b with
    | nil =>
      simp at h
      exact absurd (h.1 ▸ List.mem_cons_self c cs) ha
    | cons d ds =>
      simp only [List.cons_append, List.cons.injEq] at h
      obtain ⟨rfl, h2⟩ := h
      obtain ⟨h3, h4⟩ := ih (fun hm => ha (by simp [hm])) (fun hm => hb (by simp [hm])) h2
      exact ⟨by rw [h3], h4⟩

theorem joinPath_inj : ∀ {l1 l2 : FsPath}, (∀ c ∈ l1, c ≠ [] ∧ '/' ∉ c) →
    (∀ c ∈ l2, c ≠ [] ∧ '/' ∉ c) → joinPath l1 = joinPath l2 → l1 = l2 := by
  intro l1
  induction l1 with
  | nil =>
    intro l2 _ h2 h
    cases l2 with
    | nil => rfl
    | cons b bs =>
      exfalso
      cases bs with
      | nil => exact (h2 b (by simp)).1 (by simpa [joinPath] using h.symm)
      | cons z zs =>
        have h' : ([] : List Char) = b ++ '/' :: joinPath (z :: zs) := h
        rw [List.nil_eq, List.append_eq_nil] at h'
        simp at h'
  | cons a as ih =>
    intro l2 h1 h2 h
    cases l2 with
    | nil =>
      exfalso
      cases as with
      | nil => exact (h1 a (by simp)).1 (by simpa [joinPath] using h)
      | cons z zs =>
        have h' : a ++ '/' :: joinPath (z :: zs) = ([] : List Char) := h
        rw [List.append_eq_nil] at h'
        simp at h'
    | cons b bs =>
      cases as with
      | nil =>
        cases bs with
        | nil =>
          have h' : a = b := h
          rw [h']
        | cons z zs =>
          exfalso
          have h' : a = b ++ '/' :: joinPath (z :: zs) := h
          have hm : '/' ∈ a := by rw [h']; simp
          exact (h1 a (by simp)).2 hm
      | cons a2 as2 =>
        cases bs with
        | nil =>
          exfalso
          have h' : a ++ '/' :: joinPath (a2 :: as2) = b := h
          have hm : '/' ∈ b := by rw [← h']; simp
          exact (h2 b (by simp)).2 hm
        | cons b2 bs2 =>
          have h' : a ++ '/' :: joinPath (a2 :: as2) = b ++ '/' :: joinPath (b2 :: bs2) := h
          obtain ⟨hab, hrest⟩ :=
            append_bar_inj (h1 a (by simp)).2 (h2 b (by simp)).2 h'
          have htail := ih (fun c hc => h1 c (by simp [hc]))
            (fun c hc => h2 c (by simp [hc])) hrest
          rw [hab, htail]

theorem relative_str_some {root : List Char} {f : FsPath} {r : List Char}
    (h : relative_str root f = some r) :
    isPrefB (splitPath root) f = true ∧
      r = joinPath (f.drop (splitPath root).length) := by
  unfold relative_str at h
  by_cases hp : isPrefB (splitPath root) f = true
  · rw [if_pos hp] at h
    exact ⟨hp, (Option.some.inj h).symm⟩
  · rw [if_neg hp] at h
    simp at h

theorem relative_str_inj {root : List Char} {f f' : FsPath} {r : List Char}
    (hok : PathOk f) (hok' : PathOk f')
    (h : relative_str root f = some r) (h' : relative_str root f' = some r) :
    f = f' := by
  obtain ⟨hp, hr⟩ := relative_str_some h
  obtain ⟨hp', hr'⟩ := relative_str_some h'
  have hjoin : joinPath (f.drop (splitPath root).length) =
      joinPath (f'.drop (splitPath root).length) := by rw [← hr, ← hr']
  have hd := joinPath_inj
    (fun c hc => hok c (List.mem_of_mem_drop hc))
    (fun c hc => hok' c (List.mem_of_mem_drop hc)) hjoin
  calc f = splitPath root ++ f.drop (splitPath root).length := isPrefB_eq hp
    _ = splitPath root ++ f'.drop (splitPath root).length := by rw [hd]
    _ = f' := (isPrefB_eq hp').symm

theorem strLeB_total : ∀ a b : List Char, strLeB a b = true ∨ strLeB b a = true := by
  intro a
  induction a with
  | nil => intro b; left; rfl
  | cons c as ih =>
    intro b
    cases b with
    | nil => right; rfl
    | cons d bs =>
      rcases lt_trichotomy c d with h | h | h
      · left; simp [strLeB, h]
      · subst h
        rcases ih bs with h2 | h2
        · left; simp [strLeB, lt_irrefl, h2]
        · right; simp [strLeB, lt_irrefl, h2]
      · right; simp [strLeB, h]

theorem strLeB_trans : ∀ a b c : List Char,
    strLeB a b = true → strLeB b c = true → strLeB a c = true := by
  intro a
  induction a with
  | nil => intro b c _ _; rfl
  | cons x as ih =>
    intro b c hab hbc
    cases b with
    | nil => simp [strLeB] at hab
    | cons y bs =>
      cases c with
      | nil => simp [strLeB] at hbc
      | cons z cs =>
        simp only [strLeB] at hab hbc ⊢
        by_cases h1 : x < y
        · rw [if_pos h1] at hab
          by_cases h2 : y < z
          · simp [lt_trans h1 h2]
          · rw [if_neg h2] at hbc
            by_cases h3 : y = z
            · subst h3; simp [h1]
            · rw [if_neg h3] at hbc; simp at hbc
        · rw [if_neg h1] at hab
          by_cases h4 : x = y
          · subst h4
            rw [if_pos rfl] at hab
            by_cases h2 : x < z
            · simp [h2]
            · rw [if_neg h2] at hbc
              by_cases h5 : x = z
              · subst h5
                rw [if_pos rfl] at hbc
                simp [lt_irrefl, ih bs cs hab hbc]
              · rw [if_neg h5] at hbc; simp at hbc
          · rw [if_neg h4] at hab; simp at hab

/-! ### Lemmas: destructuring `glob_rules`, `globSets` and `far_glob` -/

theorem glob_rules_nodup {fs : FileSystem} {root : List Char}
    {rules : List (List Char)} {I : List FsPath}
    (h : glob_rules fs root rules = some I) : I.Nodup := by
  unfold glob_rules at h
  cases hm : mapOpt (fs.glob (expanduser fs root)) rules with
  | none => rw [hm] at h; simp at h
  | some ls =>
    rw [hm] at h
    rw [← Option.some.inj h]
    exact List.nodup_dedup _

theorem glob_rules_mem {fs : FileSystem} {root : List Char}
    {rules : List (List Char)} {I : List FsPath}
    (h : glob_rules fs root rules = some I) :
    ∀ f ∈ I, ∃ rule ∈ rules, ∃ ps,
      fs.glob (expanduser fs root) rule = some ps ∧ f ∈ ps := by
  unfold glob_rules at h
  cases hm : mapOpt (fs.glob (expanduser fs root)) rules with
  | none => rw [hm] at h; simp at h
  | some ls =>
    rw [hm] at h
    intro f hf
    rw [← Option.some.inj h] at hf
    have hf2 : f ∈ ls.flatten := (List.mem_filter.1 (List.mem_dedup.1 hf)).1
    obtain ⟨l, hl, hfl⟩ := List.mem_flatten.1 hf2
    obtain ⟨rule, hrule, hg⟩ := forall2_mem_right (mapOpt_forall2 hm) l hl
    exact ⟨rule, hrule, l, hg, hfl⟩

theorem glob_rules_pathok {fs : FileSystem} {root : List Char}
    {rules : List (List Char)} {I : List FsPath} (hOk : GlobPathsOk fs)
    (h : glob_rules fs root rules = some I) : ∀ f ∈ I, PathOk f := by
  intro f hf
  obtain ⟨rule, -, ps, hg, hfl⟩ := glob_rules_mem h f hf
  exact hOk _ _ _ hg f hfl

theorem glob_rules_under {fs : FileSystem} {root : List Char}
    {rules : List (List Char)} {I : List FsPath} (hU : GlobUnder fs)
    (hroot : expanduser fs root = root)
    (h : glob_rules fs root rules = some I) :
    ∀ f ∈ I, isPrefB (splitPath root) f = true := by
  intro f hf
  obtain ⟨rule, -, ps, hg, hfl⟩ := glob_rules_mem h f hf
  have := hU _ _ _ hg f hfl
  rwa [hroot] at this

theorem globSets_destruct {fs : FileSystem} {root : List Char}
    {rules irules : List (List Char)} {I N E : List FsPath}
    (hg : globSets fs root rules irules = some (I, N, E)) :
    ∃ ign exc rs igs exs,
      exception_ignore irules = some (ign, exc) ∧
      proc rules = some rs ∧ proc ign = some igs ∧ proc exc = some exs ∧
      glob_rules fs root rs = some I ∧ glob_rules fs root igs = some N ∧
      glob_rules fs root exs = some E := by
  unfold globSets at hg
  cases he : exception_ignore irules with
  | none => rw [he] at hg; exact Option.noConfusion hg
  | some p =>
    obtain ⟨ign, exc⟩ := p
    rw [he] at hg
    replace hg : (match proc rules, proc ign, proc exc with
      | some rs, some igs, some exs =>
        (match glob_rules fs root rs, glob_rules fs root igs,
            glob_rules fs root exs with
         | some files, some nfiles, some efiles => some (files, nfiles, efiles)
         | _, _, _ => none)
      | _, _, _ => none) = some (I, N, E) := hg
    cases h1 : proc rules with
    | none => rw [h1] at hg; exact Option.noConfusion hg
    | some rs =>
      rw [h1] at hg
      cases h2 : proc ign with
      | none => rw [h2] at hg; exact Option.noConfusion hg
      | some igs =>
        rw [h2] at hg
        cases h3 : proc exc with
        | none => rw [h3] at hg; exact Option.noConfusion hg
        | some exs =>
          rw [h3] at hg
          replace hg : (match glob_rules fs root rs, glob_rules fs root igs,
              glob_rules fs root exs with
            | some files, some nfiles, some efiles => some (files, nfiles, efiles)
            | _, _, _ => none) = some (I, N, E) := hg
          cases h4 : glob_rules fs root rs with
          | none => rw [h4] at hg; exact Option.noConfusion hg
          | some I2 =>
            rw [h4] at hg
            cases h5 : glob_rules fs root igs with
            | none => rw [h5] at hg; exact Option.noConfusion hg
            | some N2 =>
              rw [h5] at hg
              cases h6 : glob_rules fs root exs with
              | none => rw [h6] at hg; exact Option.noConfusion hg
              | some E2 =>
                rw [h6] at hg
                have hinj : (I2, N2, E2) = (I, N, E) := Option.some.inj hg
                simp only [Prod.mk.injEq] at hinj
                obtain ⟨rfl, rfl, rfl⟩ := hinj
                exact ⟨ign, exc, rs, igs, exs, rfl, rfl, h2, h3, h4, h5, h6⟩

theorem far_glob_destruct {fs : FileSystem} {root : List Char}
    {rules irules : List (List Char)} {I N E : List FsPath}
    {res : List (List Char)}
    (hg : globSets fs root rules irules = some (I, N, E))
    (hf : far_glob fs root rules irules = some res) :
    ∃ rels, mapOpt (relative_str root)
        (I.filter fun f => decide (¬ (f ∈ N ∧ f ∉ E))) = some rels ∧
      res = sortStr rels := by
  unfold far_glob at hf
  rw [hg] at hf
  replace hf : (match mapOpt (relative_str root)
      (I.filter fun f => decide (¬ (f ∈ N ∧ f ∉ E))) with
    | none => none
    | some rels => some (sortStr rels)) = some res := hf
  cases hm : mapOpt (relative_str root)
      (I.filter fun f => decide (¬ (f ∈ N ∧ f ∉ E))) with
  | none => rw [hm] at hf; simp at hf
  | some rels =>
    rw [hm] at hf
    exact ⟨rels, rfl, (Option.some.inj hf).symm⟩

theorem far_glob_globSets {fs : FileSystem} {root : List Char}
    {rules irules : List (List Char)} {res : List (List Char)}
    (hf : far_glob fs root rules irules = some res) :
    ∃ I N E, globSets fs root rules irules = some (I, N, E) := by
  unfold far_glob at hf
  cases hg : globSets fs root rules irules with
  | none => rw [hg] at hf; exact Option.noConfusion hf
  | some t =>
    obtain ⟨I, N, E⟩ := t
    exact ⟨I, N, E, rfl⟩

theorem nodup_rels {root : List Char} {l : List FsPath} {rs : List (List Char)}
    (h : List.Forall₂ (fun f r => relative_str root f = some r) l rs)
    (hok : ∀ f ∈ l, PathOk f) (hnd : l.Nodup) : rs.Nodup := by
  induction h with
  | nil => exact List.nodup_nil
  | @cons f r l' rs' hr ht ih =>
    rw [List.nodup_cons] at hnd ⊢
    refine ⟨?_, ih (fun x hx => hok x (by simp [hx])) hnd.2⟩
    intro hmem
    obtain ⟨f', hf', hrel'⟩ := forall2_mem_right ht _ hmem
    have heq : f = f' :=
      relative_str_inj (hok f (by simp)) (hok f' (by simp [hf'])) hr hrel'
    exact hnd.1 (heq ▸ hf')

/-! ### Claim theorems -/

/-- C9: whenever `far_glob` succeeds (for a glob oracle yielding well-formed
paths), the returned list of relative path strings is sorted in the
lexicographic string order and contains no duplicate entries. -/
theorem far_glob_sorted_nodup (fs : FileSystem) (root : List Char)
    (rules irules : List (List Char)) (res : List (List Char))
    (hOk : GlobPathsOk fs)
    (hf : far_glob fs root rules irules = some res) :
    res.Sorted strLe ∧ res.Nodup := by
  obtain ⟨I, N, E, hg⟩ := far_glob_globSets hf
  obtain ⟨rels, hrels, hres⟩ := far_glob_destruct hg hf
  obtain ⟨ign, exc, rs, igs, exs, he, hp1, hp2, hp3, hgr1, hgr2, hgr3⟩ :=
    globSets_destruct hg
  have hInd : I.Nodup := glob_rules_nodup hgr1
  have hIok : ∀ f ∈ I, PathOk f := glob_rules_pathok hOk hgr1
  have hperm := List.perm_insertionSort strLe rels
  constructor
  · rw [hres]
    haveI : IsTotal (List Char) strLe := ⟨strLeB_total⟩
    haveI : IsTrans (List Char) strLe := ⟨strLeB_trans⟩
    exact List.sorted_insertionSort strLe rels
  · rw [hres]
    have hkept_nodup : (I.filter fun f => decide (¬ (f ∈ N ∧ f ∉ E))).Nodup :=
      hInd.filter _
    have hkept_ok : ∀ f ∈ I.filter fun f => decide (¬ (f ∈ N ∧ f ∉ E)), PathOk f :=
      fun f hf' => hIok f (List.mem_of_mem_filter hf')
    have hrnd : rels.Nodup := nodup_rels (mapOpt_forall2 hrels) hkept_ok hkept_nodup
    exact hperm.nodup_iff.mpr hrnd

/-- C1: whenever `far_glob` succeeds (for a realistic glob oracle and a root
the home-expansion leaves unchanged), a file matched by the include globs
appears in the result (as its root-relative string) if and only if it is not
in the ignore-glob match set, or it is in that set and also in the
exception-ignore match set — exceptions strictly override ignores, i.e. the
result represents (Included − Ignored) ∪ (Included ∩ Ignored ∩ ExceptionIgnored). -/
theorem far_glob_result_set_algebra (fs : FileSystem) (root : List Char)
    (rules irules : List (List Char)) (I N E : List FsPath)
    (res : List (List Char))
    (hOk : GlobPathsOk fs) (hU : GlobUnder fs)
    (hroot : expanduser fs root = root)
    (hg : globSets fs root rules irules = some (I, N, E))
    (hf : far_glob fs root rules irules = some res) :
    ∀ f ∈ I, ∃ r, relative_str root f = some r ∧
      (r ∈ res ↔ (f ∉ N ∨ (f ∈ N ∧ f ∈ E))) := by
  obtain ⟨rels, hrels, hres⟩ := far_glob_destruct hg hf
  obtain ⟨ign, exc, rs, igs, exs, he, hp1, hp2, hp3, hgr1, hgr2, hgr3⟩ :=
    globSets_destruct hg
  have h2 := mapOpt_forall2 hrels
  have hperm := List.perm_insertionSort strLe rels
  intro f hfI
  have hpref : isPrefB (splitPath root) f = true :=
    glob_rules_under hU hroot hgr1 f hfI
  have hfok : PathOk f := glob_rules_pathok hOk hgr1 f hfI
  have hsome : relative_str root f =
      some (joinPath (f.drop (splitPath root).length)) := by
    unfold relative_str
    rw [if_pos hpref]
  refine ⟨_, hsome, ?_⟩
  constructor
  · intro hrmem
    have hr' : joinPath (f.drop (splitPath root).length) ∈ rels := by
      rw [hres] at hrmem
      exact hperm.subset hrmem
    obtain ⟨f', hf'kept, hrel'⟩ := forall2_mem_right h2 _ hr'
    have hf'I : f' ∈ I := List.mem_of_mem_filter hf'kept
    have hf'ok : PathOk f' := glob_rules_pathok hOk hgr1 f' hf'I
    have heq : f' = f := relative_str_inj hf'ok hfok hrel' hsome
    rw [heq] at hf'kept
    have hp := of_decide_eq_true (List.mem_filter.1 hf'kept).2
    by_cases hN : f ∈ N
    · right
      refine ⟨hN, ?_⟩
      by_contra hE
      exact hp ⟨hN, hE⟩
    · left; exact hN
  · intro hcond
    have hpred : ¬ (f ∈ N ∧ f ∉ E) := by
      rcases hcond with hN | ⟨hN, hE⟩
      · exact fun hc => hN hc.1
      · exact fun hc => hc.2 hE
    have hkept : f ∈ I.filter fun f => decide (¬ (f ∈ N ∧ f ∉ E)) :=
      List.mem_filter.2 ⟨hfI, decide_eq_true hpred⟩
    obtain ⟨r', hr'rels, hrel'⟩ := forall2_mem_left h2 f hkept
    have hr'eq : r' = joinPath (f.drop (splitPath root).length) := by
      rw [hsome] at hrel'
      exact (Option.some.inj hrel').symm
    rw [hres]
    exact hperm.mem_iff.2 (hr'eq ▸ hr'rels)

theorem findOr_none_bounded (r : List Char)
    (h : ∀ k < r.length, matchGroupAt (r.drop k) = none) : findOr r = none := by
  apply findOr_none_of
  intro k
  by_cases hk : k < r.length
  · exact h k hk
  · rw [List.drop_eq_nil_of_le (by omega)]
    rfl

/-- C5: `parse_or` on the single rule `.*(cpp|hpp).(c|h)` returns exactly the
four rules `.*cpp.c`, `.*hpp.c`, `.*cpp.h`, `.*hpp.h`, in that order. -/
theorem parse_or_cross_product_example :
    parse_or [str ".*(cpp|hpp).(c|h)"] =
      [str ".*cpp.c", str ".*hpp.c", str ".*cpp.h", str ".*hpp.h"] := by decide

/-- C4 counterexample: on the rule `(a|b)x(c|d)` a single expansion pass does
NOT replace the first (leftmost) group — it replaces the last one, producing
`(a|b)xc`, `(a|b)xd` instead of the claimed `ax(c|d)`, `bx(c|d)` (the greedy
`pre` group of the regex makes `re.search` capture the rightmost group). -/
theorem parse_or_pass_not_leftmost :
    (parse_or_pass [str "(a|b)x(c|d)"]).1 = [str "(a|b)xc", str "(a|b)xd"] ∧
      (parse_or_pass [str "(a|b)x(c|d)"]).1 ≠ [str "ax(c|d)", str "bx(c|d)"] := by
  decide

/-- C4 (amended): a single expansion pass of `parse_or` replaces the LAST
(rightmost) recognised alternation group of a rule with its alternatives,
leaving the earlier groups intact (so multiple groups are resolved
right-to-left across successive passes): if the regex match decomposes `r` as
`pre(e1|...|en)post` then no group is recognised at any position after `pre`,
and the pass maps `[r]` to `[pre + e + post | e among the alternatives]`. -/
theorem parse_or_pass_expands_rightmost (r pre : List Char)
    (alts : List (List Char)) (post : List Char)
    (h : findOr r = some (pre, alts, post)) :
    r = pre ++ '(' :: (joinBar alts ++ ')' :: post) ∧
      parse_or_pass [r] = (alts.map fun a => pre ++ a ++ post, true) ∧
      ∀ k, pre.length < k → matchGroupAt (r.drop k) = none := by
  obtain ⟨hd, hok, hrm⟩ := findOr_spec h
  refine ⟨hd, ?_, hrm⟩
  simp [parse_or_pass, expandRule, h]

theorem parse_or_pass_expands_rightmost_witness :
    findOr (str "(a|b)x(c|d)") = some (str "(a|b)x", [ [ 'c' ], [ 'd' ] ], []) ∧
      parse_or_pass [str "(a|b)x(c|d)"] =
        ([str "(a|b)xc", str "(a|b)xd"], true) := by
  have h : findOr (str "(a|b)x(c|d)") =
      some (str "(a|b)x", [ [ 'c' ], [ 'd' ] ], []) := by decide
  refine ⟨h, ?_⟩
  rw [(parse_or_pass_expands_rightmost _ _ _ _ h).2.1]
  decide

/-- C10: `parse_or` leaves unchanged every rule in which no position carries a
recognisable alternation group (a `(...)` whose `|`-separated alternatives are
all non-empty word-character strings) — for instance rules whose groups all
contain a non-word character in some alternative, so the parentheses survive
into normalisation as literal glob characters. -/
theorem parse_or_unchanged_no_word_group (r : List Char)
    (h : ∀ k < r.length, matchGroupAt (r.drop k) = none) :
    parse_or [r] = [r] :=
  parse_or_single_nomatch (findOr_none_bounded r h)

theorem parse_or_unchanged_no_word_group_witness :
    ((∀ k < (str "(*.c|*.h)").length,
        matchGroupAt ((str "(*.c|*.h)").drop k) = none) ∧
      parse_or [str "(*.c|*.h)"] = [str "(*.c|*.h)"]) ∧
    ((∀ k < (str "(a.b|c)").length,
        matchGroupAt ((str "(a.b|c)").drop k) = none) ∧
      parse_or [str "(a.b|c)"] = [str "(a.b|c)"]) :=
  ⟨⟨by decide, parse_or_unchanged_no_word_group _ (by decide)⟩,
    ⟨by decide, parse_or_unchanged_no_word_group _ (by decide)⟩⟩

/-- C3 counterexample: on a list containing the empty string, `proc` and
`exception_ignore` both raise (`rule[-1]` resp. `rule[0]` raise `IndexError`),
so they are NOT total on all rule lists. -/
theorem proc_exception_ignore_raise_on_empty :
    proc [ ([] : List Char) ] = none ∧
      exception_ignore [ ([] : List Char) ] = none := by decide

/-- C3 (amended): on every list of NON-EMPTY rule strings, `proc` and
`exception_ignore` return a result and never raise; all failure is deferred to
the filesystem-globbing step. -/
theorem proc_exception_ignore_total_nonempty (rules : List (List Char))
    (h : ∀ r ∈ rules, r ≠ []) :
    (proc rules).isSome ∧ (exception_ignore rules).isSome :=
  ⟨proc_total h, exception_ignore_total h⟩

theorem proc_exception_ignore_total_nonempty_witness :
    (∀ r ∈ [str "a(b|c)", str "!d/"], r ≠ []) ∧
      ((proc [str "a(b|c)", str "!d/"]).isSome ∧
        (exception_ignore [str "a(b|c)", str "!d/"]).isSome) :=
  ⟨by decide, proc_exception_ignore_total_nonempty _ (by decide)⟩

/-- C6: a rule ending with `/**/` also ends with `/`, so the FIRST tail branch
fires and appends `**/*`, not `*`: `/xx/**/` normalises to `xx/**/**/*` and
not to the `xx/**/*` promised by the spec and by the source's own docstring
(the `/**/` branch of the source is dead code). -/
theorem proc_dir_recursive_tail_bug :
    proc [str "/xx/**/"] = some [str "xx/**/**/*"] ∧
      proc [str "/xx/**/"] ≠ some [str "xx/**/*"] := by decide

/-- C7: for every non-empty rule with no recognisable alternation group, no
leading `/` and no directory-shorthand tail (not ending in `/`, `/**` or
`/**/`), `proc` emits exactly two globs: the directory-expansion glob
`**/<rule>/**/*` followed by the prefixed glob `**/<rule>`, in that order. -/
theorem proc_anywhere_rule_two_globs (r : List Char) (hne : r ≠ [])
    (halt : ∀ k < r.length, matchGroupAt (r.drop k) = none)
    (hhead : r.head? ≠ some '/') (hlast : r.getLast? ≠ some '/')
    (h3 : lastN 3 r ≠ str "/**") (h4 : lastN 4 r ≠ str "/**/") :
    proc [r] = some [(str "**/" ++ r) ++ str "/**/*", str "**/" ++ r] := by
  have h1 : parse_or [r] = [r] :=
    parse_or_single_nomatch (findOr_none_bounded r halt)
  have h2 := procOne_anywhere hne hlast h3 h4 hhead
  unfold proc
  rw [h1]
  simp [procList, h2]

theorem proc_anywhere_rule_two_globs_witness :
    (str "xx" ≠ [] ∧ (str "xx").head? ≠ some '/' ∧
      (str "xx").getLast? ≠ some '/') ∧
    proc [str "xx"] = some [str "**/xx/**/*", str "**/xx"] := by
  refine ⟨by decide, ?_⟩
  rw [proc_anywhere_rule_two_globs (str "xx") (by decide) (by decide) (by decide)
    (by decide) (by decide) (by decide)]
  decide

/-- C2: `far_glob` does NOT behave, on a root containing `~`, as if it had
been called with the expanded root: the final `relative_to` uses the
UNEXPANDED root string, so as soon as one file survives the ignore filter the
`ValueError` of `relative_to` propagates (here: `none`), while the same call
on the pre-expanded root succeeds — contradicting the source's own docstring
("root can contain a tilde"). -/
theorem far_glob_home_root_raises :
    expanduser fsB (str "~/d") = str "/h/d" ∧
      far_glob fsB (str "~/d") [str "x"] [] = none ∧
      far_glob fsB (str "/h/d") [str "x"] [] = some [str "a.txt"] := by decide

/-- C8: `load_ignore_rules` returns the distinguishable `IgnoreFileError`
exactly when the (home-expanded) file path does not exist; on an existing
readable file it never raises this error and returns the kept lines (the
stripped lines that are not blank, not `//`-prefixed and not `#`-comments). -/
theorem load_ignore_rules_err_iff_missing (fs : FileSystem)
    (file_path : List Char) :
    (load_ignore_rules fs file_path = LoadResult.ignoreFileError ↔
      fs.readFile (expanduser fs file_path) = none) ∧
    ∀ lines, fs.readFile (expanduser fs file_path) = some lines →
      load_ignore_rules fs file_path = LoadResult.ok (lines.filterMap keepLine) := by
  constructor
  · constructor
    · intro h
      cases hr : fs.readFile (expanduser fs file_path) with
      | none => rfl
      | some lines =>
        unfold load_ignore_rules at h
        rw [hr] at h
        exact LoadResult.noConfusion h
    · intro h
      unfold load_ignore_rules
      rw [h]
  · intro lines h
    unfold load_ignore_rules
    rw [h]

theorem load_ignore_rules_err_iff_missing_witness :
    fsC.readFile (expanduser fsC (str "~/.farignore")) =
      some [str "  # comment", str "", str "//old-rule", str "valid.txt"] ∧
    load_ignore_rules fsC (str "~/.farignore") = LoadResult.ok [str "valid.txt"] ∧
    load_ignore_rules fsC (str "~/missing") = LoadResult.ignoreFileError := by
  refine ⟨by decide, ?_, ?_⟩
  · rw [(load_ignore_rules_err_iff_missing fsC (str "~/.farignore")).2
      [str "  # comment", str "", str "//old-rule", str "valid.txt"] (by decide)]
    decide
  · exact (load_ignore_rules_err_iff_missing fsC (str "~/missing")).1.mpr (by decide)

theorem fsA_paths_ok : GlobPathsOk fsA := by
  intro root rule ps hps f hf
  have hps' := Option.some.inj hps
  rw [← hps'] at hf
  by_cases h1 : root = str "r"
  · rw [if_pos h1] at hf
    have hcases : f = paA ∨ f = pbA ∨ f = pcA := by
      split_ifs at hf <;> simp at hf <;> tauto
    rcases hcases with rfl | rfl | rfl <;> (unfold PathOk; decide)
  · rw [if_neg h1] at hf
    simp at hf

theorem fsA_under : GlobUnder fsA := by
  intro root rule ps hps f hf
  have hps' := Option.some.inj hps
  rw [← hps'] at hf
  by_cases h1 : root = str "r"
  · subst h1
    rw [if_pos rfl] at hf
    have hcases : f = paA ∨ f = pbA ∨ f = pcA := by
      split_ifs at hf <;> simp at hf <;> tauto
    rcases hcases with rfl | rfl | rfl <;> decide
  · rw [if_neg h1] at hf
    simp at hf

theorem far_glob_sorted_nodup_witness :
    far_glob fsA (str "r") [str "x"] [str "y", str "!z"] =
      some [str "a.txt", str "c.txt"] ∧
    ([str "a.txt", str "c.txt"].Sorted strLe ∧
      [str "a.txt", str "c.txt"].Nodup) :=
  ⟨by decide, far_glob_sorted_nodup fsA (str "r") [str "x"] [str "y", str "!z"]
    [str "a.txt", str "c.txt"] fsA_paths_ok (by decide)⟩

theorem far_glob_result_set_algebra_witness :
    far_glob fsA (str "r") [str "x"] [str "y", str "!z"] =
      some [str "a.txt", str "c.txt"] ∧
    (str "b.txt" ∈ [str "a.txt", str "c.txt"] ↔
      (pbA ∉ [pbA, pcA] ∨ (pbA ∈ [pbA, pcA] ∧ pbA ∈ [pcA]))) := by
  refine ⟨by decide, ?_⟩
  obtain ⟨r, hr, hiff⟩ := far_glob_result_set_algebra fsA (str "r") [str "x"]
    [str "y", str "!z"] [paA, pbA, pcA] [pbA, pcA] [pcA]
    [str "a.txt", str "c.txt"] fsA_paths_ok fsA_under (by decide) (by decide)
    (by decide) pbA (by decide)
  have hreq : r = str "b.txt" := by
    rw [show relative_str (str "r") pbA = some (str "b.txt") by decide] at hr
    exact (Option.some.inj hr).symm
  rw [← hreq]
  exact hiff
